import Mathlib

/-!
Verification development for the registrar lookup tool (reg.py / reg_db.py):
a shallow embedding of its query builder and result presenter, with theorems
about the claims of the specification.

Strings are modelled as `List Char` (`String` literals are converted with
`.data`).  Python's `print(s)` emits `s` followed by one newline, so the
lines of a report are the concatenation of `splitLines` of the payloads.
-/

/-- Python `str.replace(old, new)` for a one-character needle: occurrences
of a single character are disjoint, so the left-to-right replacement is a
`flatMap`. -/
def replaceChar (old : Char) (new : List Char) (s : List Char) : List Char :=
  s.flatMap (fun c => if c = old then new else [c])

/-- `RegDB.replace_wildcards`: `string.replace("%", "@%")` followed by
`string.replace("_", "@_")`. -/
def replace_wildcards (s : List Char) : List Char :=
  replaceChar '_' ['@', '_'] (replaceChar '%' ['@', '%'] s)

/-- Python `str.lower`, modelled characterwise (the ASCII data this tool
handles). -/
def pyLower (s : List Char) : List Char := s.map Char.toLower

/-- Python truthiness of an optional string: `None` and `""` are falsy. -/
def pyTruthy (v : Option (List Char)) : Bool :=
  match v with
  | Option.none => false
  | Option.some s => !s.isEmpty

/-- The parsed command-line arguments of the list mode: the four optional
filters `-d`, `-n`, `-a`, `-t` (argparse yields `None` for an absent flag). -/
structure Args where
  d : Option (List Char)
  n : Option (List Char)
  a : Option (List Char)
  t : Option (List Char)

/-- One pass of the loop body of `RegDB.format_args`: a truthy value is
escaped, lowercased, stripped of newlines and wrapped in `%` wildcards, in
that order; `None` and the empty string are left untouched. -/
def fmtOne (v : Option (List Char)) : Option (List Char) :=
  match v with
  | Option.none => Option.none
  | Option.some s =>
    if s.isEmpty then Option.some s
    else Option.some (('%' :: replaceChar '\n' [] (pyLower (replace_wildcards s))) ++ ['%'])

/-- `RegDB.format_args`: iterates over all argument fields, updating each
truthy one in place. -/
def format_args (ar : Args) : Args :=
  Args.mk (fmtOne ar.d) (fmtOne ar.n) (fmtOne ar.a) (fmtOne ar.t)

/-- The fixed head of the statement built by `RegDB.get_search_query` (the
Python triple-quoted literal, character for character). -/
def baseSearchQuery : List Char :=
  ("\n        SELECT classid, dept, coursenum, area, title\n        FROM classes\n        INNER JOIN courses ON classes.courseid = courses.courseid\n        INNER JOIN crosslistings ON classes.courseid = crosslistings.courseid\n        ").data

/-- `RegDB.get_search_query`: appends one `LIKE` clause per truthy filter to
a `WHERE ` string, strips the trailing `" AND "` (Python `where[:-5]`) when
any clause was added, and always appends the fixed `ORDER BY`. -/
def get_search_query (ar : Args) : List Char :=
  let w0 := ("WHERE ").data
  let w1 := if pyTruthy ar.d then w0 ++ ("dept LIKE ? escape '@' AND ").data else w0
  let w2 := if pyTruthy ar.n then w1 ++ ("coursenum LIKE ? escape '@' AND ").data else w1
  let w3 := if pyTruthy ar.a then w2 ++ ("area LIKE ? escape '@' AND ").data else w2
  let w4 := if pyTruthy ar.t then w3 ++ ("title LIKE ? escape '@' AND ").data else w3
  let w := if w4 = ("WHERE ").data then [] else w4.take (w4.length - 5)
  baseSearchQuery ++ w ++ (" ORDER BY dept, coursenum, classid").data

/-- The parameter list assembled in `RegDB.search` after `format_args` has
run: one value per truthy filter, in the order d, n, a, t. -/
def searchParameters (ar : Args) : List (List Char) :=
  (if pyTruthy ar.d then [ar.d.getD []] else []) ++
    (if pyTruthy ar.n then [ar.n.getD []] else []) ++
      (if pyTruthy ar.a then [ar.a.getD []] else []) ++
        (if pyTruthy ar.t then [ar.t.getD []] else [])

/-- `RegDB.get_details_query`: the fixed detail statement. -/
def get_details_query : List Char :=
  ("\n        SELECT classes.courseid, days, starttime, endtime, bldg, roomnum, dept, coursenum, area, title, descrip, prereqs, profname\n        FROM classes\n        INNER JOIN courses ON classes.courseid = courses.courseid\n        INNER JOIN crosslistings ON classes.courseid = crosslistings.courseid\n        LEFT JOIN coursesprofs ON classes.courseid = coursesprofs.courseid\n        LEFT JOIN profs ON coursesprofs.profid = profs.profid\n        WHERE classid = ? ORDER BY dept, coursenum").data

/-- The four filterable columns, in the order the query builder tests
them. -/
inductive Col
  | dept
  | coursenum
  | area
  | title
deriving DecidableEq

/-- The `LIKE` predicate text the query builder appends for a column. -/
def predOf : Col → List Char
  | Col.dept => ("dept LIKE ? escape '@'").data
  | Col.coursenum => ("coursenum LIKE ? escape '@'").data
  | Col.area => ("area LIKE ? escape '@'").data
  | Col.title => ("title LIKE ? escape '@'").data

/-- The provided (truthy) filters with their columns, in the builder's
left-to-right order d, n, a, t. -/
def providedPairs (ar : Args) : List (Col × List Char) :=
  (if pyTruthy ar.d then [(Col.dept, ar.d.getD [])] else []) ++
    (if pyTruthy ar.n then [(Col.coursenum, ar.n.getD [])] else []) ++
      (if pyTruthy ar.a then [(Col.area, ar.a.getD [])] else []) ++
        (if pyTruthy ar.t then [(Col.title, ar.t.getD [])] else [])

/-- The WHERE clause as the specification describes it: absent when no
filter is provided, otherwise one predicate per provided filter joined by
AND. -/
def whereClause (ar : Args) : List Char :=
  if (providedPairs ar).isEmpty then []
  else ("WHERE ").data ++
    List.intercalate (" AND ").data ((providedPairs ar).map (fun p => predOf p.1))

/-- Wildcard escaping as the specification words it: prefix each `%` and `_`
with the escape character `@`. -/
def escChar (c : Char) : List Char :=
  if c = '%' ∨ c = '_' then ['@', c] else [c]

/-- Newline removal (Python `value.replace("\n", "")`). -/
def stripNewlines (s : List Char) : List Char := s.filter (fun c => c != '\n')

/-- Normalization as the claim words it: for a provided (non-empty) filter,
escape wildcards, lowercase, strip newlines, then wrap in `%`; otherwise the
field is untouched. -/
def normalizeSpec (v : Option (List Char)) : Option (List Char) :=
  match v with
  | Option.none => Option.none
  | Option.some s =>
    if s.isEmpty then Option.some s
    else Option.some (('%' :: stripNewlines (pyLower (s.flatMap escChar))) ++ ['%'])

/-- Replace an empty-string field by an absent field. -/
def blankToNone (v : Option (List Char)) : Option (List Char) :=
  if v = Option.some [] then Option.none else v

/-- An argument set with every empty-string filter replaced by an absent
one. -/
def blankArgs (ar : Args) : Args :=
  Args.mk (blankToNone ar.d) (blankToNone ar.n) (blankToNone ar.a) (blankToNone ar.t)

/-- SQLite `LIKE` matching with an escape character, modelled from the data
store contract the specification describes: `%` matches any sequence, `_`
any single character, and the escape character `@` makes its successor
literal.  Character comparison is exact. -/
def likeMatch : List Char → List Char → Bool
  | [], f => f.isEmpty
  | '%' :: ps, [] => likeMatch ps []
  | '%' :: ps, d :: f2 => likeMatch ps (d :: f2) || likeMatch ('%' :: ps) f2
  | '@' :: pc :: ps, d :: f2 => pc == d && likeMatch ps f2
  | '@' :: _ :: _, [] => false
  | ['@'], _ => false
  | '_' :: _, [] => false
  | '_' :: ps, _ :: f2 => likeMatch ps f2
  | _ :: _, [] => false
  | p :: ps, d :: f2 => p == d && likeMatch ps f2
termination_by p f => (p.length, f.length)

/-- The LIKE pattern the tool sends for a filter string: wildcards escaped
by `replace_wildcards`, then wrapped in `%` (the escape and wrap steps of
the normalization). -/
def searchPattern (s : List Char) : List Char :=
  ('%' :: replace_wildcards s) ++ ['%']

/-- Split a character stream into lines at newline characters. -/
def splitLines (s : List Char) : List (List Char) :=
  match s with
  | [] => [[]]
  | c :: t =>
    if c = '\n' then [] :: splitLines t
    else
      match splitLines t with
      | [] => [[c]]
      | h :: t2 => (c :: h) :: t2

/-- Python textwrap's `replace_whitespace` step: every whitespace character
becomes a plain space. -/
def replaceWs (s : List Char) : List Char :=
  s.map (fun c => if c.isWhitespace then ' ' else c)

/-- A whitespace chunk: all its characters are whitespace (Python
`chunk.strip() == ''`). -/
def isWsChunk (c : List Char) : Bool := c.all Char.isWhitespace

/-- Maximal runs of whitespace / non-whitespace characters: the chunks
Python textwrap wraps (`break_on_hyphens` splitting of compound words is not
modelled). -/
def chunksOf : List Char → List (List Char)
  | [] => []
  | c :: cs =>
    match chunksOf cs with
    | [] => [[c]]
    | [] :: rs => [c] :: rs
    | (d :: r) :: rs =>
      if c.isWhitespace = d.isWhitespace then (c :: d :: r) :: rs
      else [c] :: (d :: r) :: rs

/-- The maximal non-whitespace runs (words) of a string. -/
def nonWsRuns (s : List Char) : List (List Char) :=
  (chunksOf s).filter (fun c => !(isWsChunk c))

/-- Total length of a chunk list. -/
def sumLen (l : List (List Char)) : Nat := (l.map List.length).sum

/-- Greedy inner loop of `textwrap._wrap_chunks`: take chunks while the
current line stays within `w`. -/
def takeFit (w : Nat) : Nat → List (List Char) → List (List Char) × List (List Char)
  | _, [] => ([], [])
  | len, c :: cs =>
    if len + c.length ≤ w then
      let p := takeFit w (len + c.length) cs
      (c :: p.1, p.2)
    else ([], c :: cs)

/-- Drop a trailing whitespace chunk from a finished line
(`drop_whitespace=True`). -/
def dropTrailWs (cur : List (List Char)) : List (List Char) :=
  match cur.getLast? with
  | Option.none => cur
  | Option.some c => if isWsChunk c then cur.dropLast else cur

/-- One line-building step of `textwrap._wrap_chunks` at inner width `w`:
greedy fill, then `_handle_long_word` for a next chunk longer than `w` (with
`break_long_words` the chunk is cut — the `max … 1` totalizes the
unreachable `space_left = 0` corner — otherwise it goes alone onto an empty
line), then a trailing whitespace chunk is dropped.  Returns the line's text
(`none` when only whitespace remained) and the unconsumed chunks. -/
def wrapStep (w : Nat) (blw : Bool) (chunks : List (List Char)) :
    Option (List Char) × List (List Char) :=
  let t := takeFit w 0 chunks
  let hl :=
    match t.2 with
    | [] => (t.1, ([] : List (List Char)))
    | c :: cs =>
      if w < c.length then
        if blw then
          let sl := max (w - sumLen t.1) 1
          (t.1 ++ [c.take sl], c.drop sl :: cs)
        else if t.1.isEmpty then ([c], cs)
        else (t.1, c :: cs)
      else (t.1, c :: cs)
  let fin := dropTrailWs hl.1
  (if fin.isEmpty then Option.none else Option.some fin.flatten, hl.2)

/-- Fuel that always suffices for `wrapLoopF`: one unit per chunk plus one
per character. -/
def wsMeasure (chunks : List (List Char)) : Nat :=
  (chunks.map (fun c => c.length + 1)).sum

/-- Fuel-indexed main loop of `textwrap._wrap_chunks` (`initial_indent` is
empty, as in this program).  `first` records that no line has been emitted
yet; a leading whitespace chunk of a continuation line is dropped (chunks
alternate, so handling the drop as its own iteration loses nothing).  The
fuel only totalizes the function: `wsMeasure` of the chunks is always
enough, since every iteration consumes a chunk or a character. -/
def wrapLoopF (width : Nat) (sub : List Char) (blw : Bool) :
    Nat → List (List Char) → Bool → List (List Char)
  | 0, _, _ => []
  | _ + 1, [], _ => []
  | fuel + 1, c0 :: cs0, first =>
    if !first && isWsChunk c0 then
      wrapLoopF width sub blw fuel cs0 false
    else
      let indent := if first then ([] : List Char) else sub
      let s := wrapStep (width - indent.length) blw (c0 :: cs0)
      match s.1 with
      | Option.some l => (indent ++ l) :: wrapLoopF width sub blw fuel s.2 false
      | Option.none => wrapLoopF width sub blw fuel s.2 first

/-- Python `textwrap.wrap(text, width, subsequent_indent, break_long_words)`
with this program's settings (`replace_whitespace=True`,
`drop_whitespace=True`, empty `initial_indent`): the wrapped lines. -/
def pyWrap (text : List Char) (width : Nat) (sub : List Char) (blw : Bool) :
    List (List Char) :=
  wrapLoopF width sub blw (wsMeasure (chunksOf (replaceWs text)))
    (chunksOf (replaceWs text)) true

/-- Python `textwrap.fill`: the wrapped lines joined by newlines. -/
def textwrapFill (text : List Char) (width : Nat) (sub : List Char) (blw : Bool) :
    List Char :=
  List.intercalate ['\n'] (pyWrap text width sub blw)

/-- One row of the search query's result set. -/
structure SearchRow where
  classid : List Char
  dept : List Char
  coursenum : List Char
  area : List Char
  title : List Char

/-- Python's right-aligned field `f"{x:>w}"`. -/
def padLeft (w : Nat) (s : List Char) : List Char :=
  List.replicate (w - s.length) ' ' ++ s

/-- The assembled table line of `RegDB.display_table`:
`f"{classid:>5} {dept:>4} {coursenum:>6} {area:>4} {title}"`. -/
def rowLine (r : SearchRow) : List Char :=
  padLeft 5 r.classid ++ [' '] ++ padLeft 4 r.dept ++ [' '] ++
    padLeft 6 r.coursenum ++ [' '] ++ padLeft 4 r.area ++ [' '] ++ r.title

/-- The continuation indent `len(line) - len(title)` of `display_table`. -/
def tableIndent (r : SearchRow) : Nat := (rowLine r).length - r.title.length

/-- The wrapped lines of one table row. -/
def rowWrapped (r : SearchRow) : List (List Char) :=
  pyWrap (rowLine r) 72 (List.replicate (tableIndent r) ' ') false

/-- The single string `RegDB.display_table` prints for one row:
`textwrap.fill(line, 72, subsequent_indent=' '*indent,
break_long_words=False)`. -/
def displayTableLine (r : SearchRow) : List Char :=
  textwrapFill (rowLine r) 72 (List.replicate (tableIndent r) ' ') false

/-- The print payloads of `RegDB.display_table`: header, underline, then one
wrapped line per row. -/
def display_table (results : List SearchRow) : List (List Char) :=
  ("ClsId Dept CrsNum Area Title").data :: ("----- ---- ------ ---- -----").data ::
    results.map displayTableLine

/-- The lines of the printed table (each `print` payload contributes its
`splitLines`). -/
def tableLines (results : List SearchRow) : List (List Char) :=
  (display_table results).flatMap splitLines

/-- One row of the detail query's result set: the thirteen selected columns
as a record (`display_details`'s defensive column-count check holds by
construction, as the specification's design notes suggest). -/
structure DetailRow where
  courseid : List Char
  days : List Char
  starttime : List Char
  endtime : List Char
  bldg : List Char
  roomnum : List Char
  dept : List Char
  coursenum : List Char
  area : List Char
  title : List Char
  descrip : List Char
  prereqs : List Char
  profname : Option (List Char)

/-- The accumulated `dept_num` text of `RegDB.display_details`: each row's
`f"{dept} {coursenum}"` is appended as a labelled line unless it already
occurs as a substring of the whole text accumulated so far (Python's `in`
on strings is substring containment). -/
def deptNumString (results : List DetailRow) : List Char :=
  results.foldl
    (fun acc r =>
      let nd := r.dept ++ [' '] ++ r.coursenum
      if nd <:+: acc then acc
      else acc ++ ("Dept and Number: ").data ++ nd ++ ['\n'])
    []

/-- Lexicographic comparison of strings by character code (Python `<=` on
`str` for the names this tool sorts). -/
def strLeB : List Char → List Char → Bool
  | [], _ => true
  | _ :: _, [] => false
  | a :: as2, b :: bs2 => if a = b then strLeB as2 bs2 else decide (a < b)

/-- Order used to model Python's `list.sort` on the professor list: `None`
first.  A list mixing `None` and strings would raise in Python and cannot
occur here: the LEFT JOIN yields either an all-`None` or an all-string
professor column for one class. -/
def optLeB : Option (List Char) → Option (List Char) → Bool
  | Option.none, _ => true
  | Option.some _, Option.none => false
  | Option.some a2, Option.some b2 => strLeB a2 b2

/-- `optLeB` as a relation, for `List.insertionSort`. -/
def OptLe (x y : Option (List Char)) : Prop := optLeB x y = true

instance : DecidableRel OptLe := fun x y => by
  unfold OptLe
  infer_instance

/-- The professor column of every row (Python appends `curr[12]` per
row). -/
def profsOf (results : List DetailRow) : List (Option (List Char)) :=
  results.map (fun r => r.profname)

/-- `list(set(profs))` followed by `profs.sort()`: the distinct professor
entries in ascending order (any set iteration order sorts to this same
list). -/
def sortedProfs (results : List DetailRow) : List (Option (List Char)) :=
  List.insertionSort OptLe (profsOf results).dedup

/-- Python `f"{curr_prof}"`: `None` renders as the text `None`. -/
def optRepr (v : Option (List Char)) : List Char :=
  match v with
  | Option.none => ("None").data
  | Option.some s => s

/-- The `prof_str` text: one `Professor:` line per sorted entry, with the
final newline removed (Python `prof_str[:-1]`). -/
def profStr (results : List DetailRow) : List Char :=
  ((sortedProfs results).flatMap
    (fun p => ("Professor: ").data ++ optRepr p ++ ['\n'])).dropLast

/-- The conditional final payload of `display_details`, printed only when
`profs[0] is not None`. -/
def profPayload (results : List DetailRow) : List (List Char) :=
  match sortedProfs results with
  | [] => []
  | Option.none :: _ => []
  | Option.some _ :: _ => [profStr results]

/-- The wrapped `Title:` text (`break_long_words=False`). -/
def wrappedTitle (res : DetailRow) : List Char :=
  textwrapFill (("Title: ").data ++ res.title) 72 [] false

/-- The wrapped `Description:` text (`break_long_words=False`). -/
def wrappedDescrip (res : DetailRow) : List Char :=
  textwrapFill (("Description: ").data ++ res.descrip) 72 [] false

/-- The wrapped `Prerequisites:` text (`break_long_words=True`). -/
def wrappedPrereqs (res : DetailRow) : List Char :=
  textwrapFill (("Prerequisites: ").data ++ res.prereqs) 72 [] true

/-- The print payloads of `RegDB.display_details` before the professor
section, in print order (empty for an empty result set — unreachable, since
`get_details` exits on a zero-row result). -/
def displayDetailsNoprof (results : List DetailRow) : List (List Char) :=
  match results with
  | [] => []
  | res :: _ =>
    [("Course Id: ").data ++ res.courseid ++ ['\n'],
     ("Days: ").data ++ res.days,
     ("Start time: ").data ++ res.starttime,
     ("End time: ").data ++ res.endtime,
     ("Building: ").data ++ res.bldg,
     ("Room: ").data ++ res.roomnum ++ ['\n'],
     deptNumString results,
     ("Area: ").data ++ res.area ++ ['\n'],
     wrappedTitle res ++ ['\n'],
     wrappedDescrip res ++ ['\n'],
     if 0 < res.prereqs.length then wrappedPrereqs res ++ ['\n']
     else ("Prerequisites:\n").data]

/-- All print payloads of `RegDB.display_details`. -/
def display_details (results : List DetailRow) : List (List Char) :=
  displayDetailsNoprof results ++ profPayload results

/-- The report's lines before the professor section. -/
def detailPre (results : List DetailRow) : List (List Char) :=
  (displayDetailsNoprof results).flatMap splitLines

/-- The professor section's lines. -/
def profSection (results : List DetailRow) : List (List Char) :=
  (profPayload results).flatMap splitLines

/-- Every line of the detail report. -/
def detailLines (results : List DetailRow) : List (List Char) :=
  (display_details results).flatMap splitLines

/-- The data store's response to one query: rows, or an execution error. -/
inductive ExecResult (ρ : Type)
  | ok (rows : List ρ)
  | err (msg : List Char)

/-- The observable outcome of one invocation: normal printed output (exit
status 0), an error reported on stderr with `sys.exit(1)`, or an exception
left uncaught, propagating out of the method. -/
inductive Outcome
  | printed (lines : List (List Char))
  | exitErr (msg : List Char)
  | raised (msg : List Char)
deriving DecidableEq

/-- Python `str.isdigit` on the ASCII identifiers this tool sees: non-empty
and all digits. -/
def pyIsDigit (s : List Char) : Bool := !s.isEmpty && s.all Char.isDigit

/-- `RegDB.search`: normalizes the arguments, builds the query and the
parameter list, runs the statement (`store` stands for the data store's
cursor), and on an execution error writes the message to stderr and exits 1;
otherwise the result table is printed. -/
def search (ar : Args)
    (store : List Char → List (List Char) → ExecResult SearchRow) : Outcome :=
  let fa := format_args ar
  match store (get_search_query fa) (searchParameters fa) with
  | ExecResult.err m => Outcome.exitErr m
  | ExecResult.ok rows => Outcome.printed (tableLines rows)

/-- `RegDB.get_details`: validates the identifier before any query is built;
the execute call has no try/except, so a store error propagates as an
uncaught exception; a zero-row result is fatal; otherwise the detail report
is printed. -/
def get_details (classID : List Char)
    (store : List Char → List (List Char) → ExecResult DetailRow) : Outcome :=
  if !(pyIsDigit classID) then
    Outcome.exitErr ("Error: Class ID must be a number").data
  else
    match store get_details_query [classID] with
    | ExecResult.err m => Outcome.raised m
    | ExecResult.ok [] =>
        Outcome.exitErr (("no class with classid ").data ++ classID ++ (" exists").data)
    | ExecResult.ok (r :: rs) => Outcome.printed (detailLines (r :: rs))

/-! ### Helper lemmas: the query builder -/

theorem replaceChar_cons (old : Char) (new : List Char) (c : Char) (s : List Char) :
    replaceChar old new (c :: s) =
      (if c = old then new else [c]) ++ replaceChar old new s := by
  simp [replaceChar]

theorem replace_wildcards_eq_flatMap_escChar (s : List Char) :
    replace_wildcards s = s.flatMap escChar := by
  induction s with
  | nil => rfl
  | cons c s ih =>
    unfold replace_wildcards at *
    rw [replaceChar_cons]
    by_cases h1 : c = '%'
    · subst h1
      simp [replaceChar_cons, escChar, ih]
    · by_cases h2 : c = '_'
      · subst h2
        simp [replaceChar_cons, escChar, ih]
      · simp [h1, replaceChar_cons, h2, escChar, ih]

theorem replaceChar_newline_eq_strip (s : List Char) :
    replaceChar '\n' [] s = stripNewlines s := by
  induction s with
  | nil => rfl
  | cons c s ih =>
    rw [replaceChar_cons]
    by_cases h : c = '\n'
    · simp [h, stripNewlines, ih]
    · simp [h, stripNewlines, List.filter_cons, ih]

theorem fmtOne_eq_normalizeSpec (v : Option (List Char)) :
    fmtOne v = normalizeSpec v := by
  cases v with
  | none => rfl
  | some s =>
    by_cases h : s.isEmpty
    · simp [fmtOne, normalizeSpec, h]
    · simp [fmtOne, normalizeSpec, h, replace_wildcards_eq_flatMap_escChar,
        replaceChar_newline_eq_strip]

/-! ### Claim theorems: the query builder -/

/-- C4: for every provided (non-empty) filter string, normalization escapes
the two LIKE wildcards with `@`, lowercases, removes newlines, and wraps the
result in `%`, in that order; absent filters are untouched and contribute no
predicate to the query. -/
theorem c4_normalization_steps (ar : Args) :
    format_args ar =
      Args.mk (normalizeSpec ar.d) (normalizeSpec ar.n) (normalizeSpec ar.a)
        (normalizeSpec ar.t)
  ∧ (ar.d = Option.none → (format_args ar).d = Option.none ∧
      Col.dept ∉ ((providedPairs (format_args ar)).map Prod.fst))
  ∧ (ar.n = Option.none → (format_args ar).n = Option.none ∧
      Col.coursenum ∉ ((providedPairs (format_args ar)).map Prod.fst))
  ∧ (ar.a = Option.none → (format_args ar).a = Option.none ∧
      Col.area ∉ ((providedPairs (format_args ar)).map Prod.fst))
  ∧ (ar.t = Option.none → (format_args ar).t = Option.none ∧
      Col.title ∉ ((providedPairs (format_args ar)).map Prod.fst)) := by
  refine ⟨?_, ?_, ?_, ?_, ?_⟩
  · simp [format_args, fmtOne_eq_normalizeSpec]
  all_goals
    intro h
    constructor
    · simp [format_args, h, fmtOne]
    · intro hmem
      simp only [providedPairs, format_args, h, fmtOne, pyTruthy] at hmem
      split_ifs at hmem <;> simp_all

/-- C5: for every filter combination the constructed list query is the fixed
head, then one `LIKE … escape '@'` predicate per provided filter joined by
AND (the clause absent when no filter is provided), then the fixed
`ORDER BY dept, coursenum, classid`; and the bound parameters are the
provided values in the same left-to-right column order as the predicates. -/
theorem c5_search_query_shape (ar : Args) :
    get_search_query ar =
      baseSearchQuery ++ whereClause ar ++ (" ORDER BY dept, coursenum, classid").data
  ∧ searchParameters ar = (providedPairs ar).map Prod.snd := by
  cases hd : pyTruthy ar.d <;> cases hn : pyTruthy ar.n <;>
    cases ha : pyTruthy ar.a <;> cases ht : pyTruthy ar.t <;>
      refine ⟨?_, ?_⟩ <;>
        simp [get_search_query, whereClause, providedPairs, searchParameters,
          hd, hn, ha, ht, List.intercalate] <;> decide

/-- C10: an empty-string filter behaves exactly like an absent one:
normalization leaves it unchanged, and the constructed query and parameter
list equal those of the invocation with the flag omitted. -/
theorem c10_blank_filter_like_absent (ar : Args) :
    fmtOne (Option.some []) = Option.some []
  ∧ get_search_query (format_args ar) = get_search_query (format_args (blankArgs ar))
  ∧ searchParameters (format_args ar) = searchParameters (format_args (blankArgs ar)) := by
  have commute : ∀ v, fmtOne (blankToNone v) = blankToNone (fmtOne v) := by
    intro v
    cases v with
    | none => rfl
    | some s =>
      cases s with
      | nil => rfl
      | cons c cs => simp [fmtOne, blankToNone]
  have truthy : ∀ v, pyTruthy (blankToNone v) = pyTruthy v := by
    intro v
    cases v with
    | none => rfl
    | some s => cases s with
      | nil => rfl
      | cons c cs => simp [blankToNone, pyTruthy]
  have getd : ∀ v : Option (List Char), (blankToNone v).getD [] = v.getD [] := by
    intro v
    cases v with
    | none => rfl
    | some s => cases s with
      | nil => simp [blankToNone]
      | cons c cs => simp [blankToNone]
  refine ⟨rfl, ?_, ?_⟩ <;>
    simp [format_args, blankArgs, commute, get_search_query, searchParameters,
      truthy, getd]

/-! ### Claim theorems: validation and error handling -/

/-- C6: a detail-lookup identifier that is not composed entirely of digits is
rejected with an error on stderr and a non-zero exit, whatever the data
store would answer — so before any query is constructed or executed. -/
theorem c6_nondigit_id_rejected (id0 : List Char)
    (store : List Char → List (List Char) → ExecResult DetailRow)
    (h : pyIsDigit id0 = false) :
    get_details id0 store = Outcome.exitErr ("Error: Class ID must be a number").data := by
  simp [get_details, h]

/-- Witness for C6 at the identifier `abc`. -/
theorem c6_witness :
    pyIsDigit ("abc").data = false ∧
      get_details ("abc").data (fun _ _ => ExecResult.ok []) =
        Outcome.exitErr ("Error: Class ID must be a number").data :=
  ⟨by decide,
   c6_nondigit_id_rejected ("abc").data (fun _ _ => ExecResult.ok []) (by decide)⟩

/-- C7: zero-row results are asymmetric by mode: a list query returning zero
rows prints only the header and underline and the process completes normally
(exit 0), while a detail query returning zero rows exits non-zero with a
`no class with classid … exists` message on stderr. -/
theorem c7_zero_rows_asymmetry (ar : Args) (id0 : List Char)
    (h : pyIsDigit id0 = true) :
    search ar (fun _ _ => ExecResult.ok []) =
      Outcome.printed
        [("ClsId Dept CrsNum Area Title").data, ("----- ---- ------ ---- -----").data]
  ∧ get_details id0 (fun _ _ => ExecResult.ok []) =
      Outcome.exitErr (("no class with classid ").data ++ id0 ++ (" exists").data) := by
  constructor
  · rfl
  · simp [get_details, h]

/-- Witness for C7 at the identifier `999999` with no filters. -/
theorem c7_witness :
    pyIsDigit ("999999").data = true ∧
      (search (Args.mk Option.none Option.none Option.none Option.none)
          (fun _ _ => ExecResult.ok []) =
        Outcome.printed
          [("ClsId Dept CrsNum Area Title").data, ("----- ---- ------ ---- -----").data]
      ∧ get_details ("999999").data (fun _ _ => ExecResult.ok []) =
          Outcome.exitErr
            (("no class with classid ").data ++ ("999999").data ++ (" exists").data)) :=
  ⟨by decide,
   c7_zero_rows_asymmetry (Args.mk Option.none Option.none Option.none Option.none)
     ("999999").data (by decide)⟩

/-- C2 evaluation: when the data store reports an execution error, the list
mode catches it and exits with the message on stderr, but the detail mode
has no handler around its execute call, so the same store error propagates
out of `get_details` as an uncaught exception instead of the claimed
stderr-and-exit behaviour. -/
theorem c2_detail_error_propagates :
    get_details ("8321").data
        (fun _ _ => ExecResult.err ("unable to open database file").data) =
      Outcome.raised ("unable to open database file").data
  ∧ search (Args.mk Option.none Option.none Option.none Option.none)
        (fun _ _ => ExecResult.err ("unable to open database file").data) =
      Outcome.exitErr ("unable to open database file").data := by
  constructor
  · rfl
  · rfl

/-- The first row of the C1 failing input: a cross-listing `MAT 201`. -/
def c1Row1 : DetailRow :=
  DetailRow.mk ("1234").data ("MW").data ("11:00 AM").data ("11:50 AM").data
    ("FINE").data ("314").data ("MAT").data ("201").data ("QR").data
    ("Multivariable Calculus").data ("Calculus of several variables.").data []
    (Option.some ("Jane Smith").data)

/-- The second row of the C1 failing input: a distinct cross-listing
`MAT 20`, whose text happens to be a substring of the first one's line. -/
def c1Row2 : DetailRow :=
  DetailRow.mk ("1234").data ("MW").data ("11:00 AM").data ("11:50 AM").data
    ("FINE").data ("314").data ("MAT").data ("20").data ("QR").data
    ("Multivariable Calculus").data ("Calculus of several variables.").data []
    (Option.some ("Jane Smith").data)

/-- C1 evaluation: the two rows carry distinct `Department Number` pairs, yet
the accumulated `dept_num` text contains only one `Dept and Number:` line —
the second pair is lost, because the code tests membership with Python's
substring `in` against the accumulated text and `MAT 20` occurs inside
`Dept and Number: MAT 201\n`. -/
theorem c1_crosslisting_line_lost :
    deptNumString [c1Row1, c1Row2] = ("Dept and Number: MAT 201\n").data
  ∧ (c1Row1.dept, c1Row1.coursenum) ≠ (c1Row2.dept, c1Row2.coursenum) := by
  constructor
  · decide
  · decide

/-! ### Helper lemmas: LIKE matching -/

theorem likeMatch_nil (f : List Char) : likeMatch [] f = f.isEmpty := by
  unfold likeMatch
  rfl

theorem likeMatch_pct_cons (ps : List Char) (c : Char) (f2 : List Char) :
    likeMatch ('%' :: ps) (c :: f2) =
      (likeMatch ps (c :: f2) || likeMatch ('%' :: ps) f2) := by
  conv_lhs => unfold likeMatch
  simp

theorem likeMatch_pct_nil (ps : List Char) :
    likeMatch ('%' :: ps) [] = likeMatch ps [] := by
  conv_lhs => unfold likeMatch
  simp

theorem likeMatch_esc_cons (pc : Char) (ps : List Char) (d : Char) (f2 : List Char) :
    likeMatch ('@' :: pc :: ps) (d :: f2) = (pc == d && likeMatch ps f2) := by
  conv_lhs => unfold likeMatch
  simp

theorem likeMatch_esc_nil (pc : Char) (ps : List Char) :
    likeMatch ('@' :: pc :: ps) [] = false := by
  conv_lhs => unfold likeMatch
  simp

theorem likeMatch_us_cons (ps : List Char) (d : Char) (f2 : List Char) :
    likeMatch ('_' :: ps) (d :: f2) = likeMatch ps f2 := by
  conv_lhs => unfold likeMatch
  simp

theorem likeMatch_us_nil (ps : List Char) : likeMatch ('_' :: ps) [] = false := by
  conv_lhs => unfold likeMatch
  simp

theorem likeMatch_lit_cons (p : Char) (ps : List Char) (d : Char) (f2 : List Char)
    (h1 : p ≠ '%') (h2 : p ≠ '@') (h3 : p ≠ '_') :
    likeMatch (p :: ps) (d :: f2) = (p == d && likeMatch ps f2) := by
  conv_lhs => unfold likeMatch
  simp [h1, h2, h3]

theorem likeMatch_lit_nil (p : Char) (ps : List Char)
    (h1 : p ≠ '%') (h2 : p ≠ '@') (h3 : p ≠ '_') :
    likeMatch (p :: ps) [] = false := by
  conv_lhs => unfold likeMatch
  simp [h1, h2, h3]

theorem likeMatch_pct_singleton (f : List Char) : likeMatch ['%'] f = true := by
  induction f with
  | nil => rw [likeMatch_pct_nil, likeMatch_nil]; rfl
  | cons c f2 ih => rw [likeMatch_pct_cons, ih]; simp

theorem likeMatch_pct_iff (ps f : List Char) :
    likeMatch ('%' :: ps) f = true ↔
      ∃ f1 f2, f = f1 ++ f2 ∧ likeMatch ps f2 = true := by
  induction f with
  | nil =>
    rw [likeMatch_pct_nil]
    constructor
    · intro h
      exact ⟨[], [], rfl, h⟩
    · rintro ⟨f1, f2, hsplit, hm⟩
      rcases List.append_eq_nil.mp hsplit.symm with ⟨h1, h2⟩
      rw [h2] at hm
      exact hm
  | cons c f2 ih =>
    rw [likeMatch_pct_cons]
    constructor
    · intro h
      rcases Bool.or_eq_true_iff.mp h with h | h
      · exact ⟨[], c :: f2, rfl, h⟩
      · rcases ih.mp h with ⟨g1, g2, hsplit, hm⟩
        exact ⟨c :: g1, g2, by simp [hsplit], hm⟩
    · rintro ⟨f1, f3, hsplit, hm⟩
      cases f1 with
      | nil =>
        simp only [List.nil_append] at hsplit
        rw [← hsplit] at hm
        simp [hm]
      | cons x xs =>
        simp only [List.cons_append, List.cons.injEq] at hsplit
        rcases hsplit with ⟨hcx, hrest⟩
        have : likeMatch ('%' :: ps) f2 = true := ih.mpr ⟨xs, f3, hrest, hm⟩
        simp [this]

theorem likeMatch_escChar_cons (c : Char) (hc : c ≠ '@') (ps f : List Char) :
    likeMatch (escChar c ++ ps) f = true ↔
      ∃ f2, f = c :: f2 ∧ likeMatch ps f2 = true := by
  by_cases hsp : c = '%' ∨ c = '_'
  · have he : escChar c ++ ps = '@' :: c :: ps := by simp [escChar, hsp]
    rw [he]
    cases f with
    | nil => simp [likeMatch_esc_nil]
    | cons d f2 =>
      rw [likeMatch_esc_cons]
      simp only [Bool.and_eq_true, beq_iff_eq, List.cons.injEq]
      constructor
      · rintro ⟨hd, hrest⟩
        exact ⟨f2, ⟨hd.symm, rfl⟩, hrest⟩
      · rintro ⟨f3, ⟨hdc, hff⟩, hm⟩
        subst hdc
        subst hff
        exact ⟨rfl, hm⟩
  · push_neg at hsp
    have he : escChar c ++ ps = c :: ps := by simp [escChar, hsp.1, hsp.2]
    rw [he]
    cases f with
    | nil =>
      rw [likeMatch_lit_nil c ps hsp.1 hc hsp.2]
      simp
    | cons d f2 =>
      rw [likeMatch_lit_cons c ps d f2 hsp.1 hc hsp.2]
      simp only [Bool.and_eq_true, beq_iff_eq, List.cons.injEq]
      constructor
      · rintro ⟨hd, hrest⟩
        exact ⟨f2, ⟨hd.symm, rfl⟩, hrest⟩
      · rintro ⟨f3, ⟨hdc, hff⟩, hm⟩
        subst hdc
        subst hff
        exact ⟨rfl, hm⟩

theorem likeMatch_escaped_iff (s f : List Char) (h : '@' ∉ s) :
    likeMatch (s.flatMap escChar ++ ['%']) f = true ↔ ∃ t, f = s ++ t := by
  induction s generalizing f with
  | nil =>
    constructor
    · intro _
      exact ⟨f, by simp⟩
    · intro _
      simpa using likeMatch_pct_singleton f
  | cons c s2 ih =>
    have hc : c ≠ '@' := fun hcc => h (hcc ▸ List.mem_cons_self c s2)
    have hs2 : '@' ∉ s2 := fun hm => h (List.mem_cons_of_mem c hm)
    rw [List.flatMap_cons, List.append_assoc, likeMatch_escChar_cons c hc]
    constructor
    · rintro ⟨f2, hf, hm⟩
      rcases (ih f2 hs2).mp hm with ⟨t, ht⟩
      exact ⟨t, by simp [hf, ht]⟩
    · rintro ⟨t, ht⟩
      cases f with
      | nil => simp at ht
      | cons d f2 =>
        simp only [List.cons_append, List.cons.injEq] at ht
        rcases ht with ⟨hdc, hrest⟩
        exact ⟨f2, by simp [hdc], (ih f2 hs2).mpr ⟨t, hrest⟩⟩

/-! ### Claim theorems: wildcard escaping -/

/-- C3 counterexample: for the input `@x` — which contains the escape
character — the escaped-and-wrapped pattern `%@x%` matches the field `x`,
although `@x` is not a literal substring of `x`: the claim's guarantee fails
for inputs holding `@`, which `replace_wildcards` leaves unescaped. -/
theorem c3_escape_char_not_neutralized :
    likeMatch (searchPattern ("@x").data) ("x").data = true
  ∧ ¬ (("@x").data <:+: ("x").data) := by
  constructor
  · have h1 : searchPattern ("@x").data = '%' :: '@' :: 'x' :: '%' :: [] := by rfl
    rw [h1, likeMatch_pct_cons, likeMatch_esc_cons, likeMatch_pct_nil, likeMatch_nil]
    simp
  · decide

/-- C3 amended: for every filter string that does not contain the escape
character `@`, escaping then wrapping yields a LIKE pattern (escape `@`)
matching a field exactly when the field contains the original string as a
literal substring; in particular `%` and `_` in such input never widen the
match. -/
theorem c3_escaped_pattern_is_substring (s f : List Char) (h : '@' ∉ s) :
    likeMatch (searchPattern s) f = true ↔ s <:+: f := by
  have hp : searchPattern s = '%' :: (s.flatMap escChar ++ ['%']) := by
    simp [searchPattern, replace_wildcards_eq_flatMap_escChar]
  rw [hp, likeMatch_pct_iff]
  constructor
  · rintro ⟨f1, f2, hsplit, hm⟩
    rcases (likeMatch_escaped_iff s f2 h).mp hm with ⟨t, ht⟩
    exact ⟨f1, t, by rw [hsplit, ht]; simp⟩
  · rintro ⟨u, v, huv⟩
    exact ⟨u, s ++ v, by rw [← huv]; simp,
      (likeMatch_escaped_iff s (s ++ v) h).mpr ⟨v, rfl⟩⟩

/-- Witness for the amended C3 at the input `50%` against the field
`a50%b`. -/
theorem c3_witness :
    ('@' ∉ ("50%").data) ∧
      (likeMatch (searchPattern ("50%").data) ("a50%b").data = true ↔
        ("50%").data <:+: ("a50%b").data) :=
  ⟨by decide, c3_escaped_pattern_is_substring ("50%").data ("a50%b").data (by decide)⟩

/-! ### Helper lemmas: the professor ordering -/

theorem strLeB_total (a b : List Char) : strLeB a b = true ∨ strLeB b a = true := by
  induction a generalizing b with
  | nil => exact Or.inl rfl
  | cons x xs ih =>
    cases b with
    | nil => exact Or.inr rfl
    | cons y ys =>
      by_cases hxy : x = y
      · subst hxy
        rcases ih ys with h | h
        · exact Or.inl (by simp [strLeB, h])
        · exact Or.inr (by simp [strLeB, h])
      · rcases lt_or_gt_of_ne hxy with h | h
        · exact Or.inl (by simp [strLeB, hxy, h])
        · exact Or.inr (by simp [strLeB, Ne.symm hxy, h])

theorem strLeB_trans (a b c : List Char) (hab : strLeB a b = true)
    (hbc : strLeB b c = true) : strLeB a c = true := by
  induction a generalizing b c with
  | nil => rfl
  | cons x xs ih =>
    cases b with
    | nil => simp [strLeB] at hab
    | cons y ys =>
      cases c with
      | nil => simp [strLeB] at hbc
      | cons z zs =>
        by_cases hxy : x = y
        · subst hxy
          by_cases hyz : x = z
          · subst hyz
            simp only [strLeB, if_pos rfl] at hab hbc ⊢
            exact ih ys zs hab hbc
          · simp only [strLeB, if_pos rfl] at hab
            simp only [strLeB, if_neg hyz] at hbc ⊢
            exact hbc
        · by_cases hyz : y = z
          · subst hyz
            simp only [strLeB, if_neg hxy] at hab ⊢
            exact hab
          · simp only [strLeB, if_neg hxy, decide_eq_true_eq] at hab
            simp only [strLeB, if_neg hyz, decide_eq_true_eq] at hbc
            have hxz : x < z := lt_trans hab hbc
            simp [strLeB, ne_of_lt hxz, hxz]

instance : IsTotal (Option (List Char)) OptLe := by
  constructor
  intro a b
  cases a with
  | none => exact Or.inl rfl
  | some a2 =>
    cases b with
    | none => exact Or.inr rfl
    | some b2 => exact strLeB_total a2 b2

instance : IsTrans (Option (List Char)) OptLe := by
  constructor
  intro a b c hab hbc
  cases a with
  | none => rfl
  | some a2 =>
    cases b with
    | none => simp [OptLe, optLeB] at hab
    | some b2 =>
      cases c with
      | none => simp [OptLe, optLeB] at hbc
      | some c2 => exact strLeB_trans a2 b2 c2 hab hbc

/-! ### Helper lemmas: splitting printed text into lines -/

theorem splitLines_eq_single (s : List Char) (h : '\n' ∉ s) :
    splitLines s = [s] := by
  induction s with
  | nil => rfl
  | cons c t ih =>
    have hc : c ≠ '\n' := fun hcc => h (hcc ▸ List.mem_cons_self c t)
    have ht : '\n' ∉ t := fun hm => h (List.mem_cons_of_mem c hm)
    simp [splitLines, hc, ih ht]

theorem splitLines_append_newline (a b : List Char) (h : '\n' ∉ a) :
    splitLines (a ++ '\n' :: b) = a :: splitLines b := by
  induction a with
  | nil => simp [splitLines]
  | cons c t ih =>
    have hc : c ≠ '\n' := fun hcc => h (hcc ▸ List.mem_cons_self c t)
    have ht : '\n' ∉ t := fun hm => h (List.mem_cons_of_mem c hm)
    simp [splitLines, hc, ih ht]

theorem flatMap_newline_ne_nil (L : List (List Char)) (hne : L ≠ []) :
    L.flatMap (fun l => l ++ ['\n']) ≠ [] := by
  cases L with
  | nil => exact absurd rfl hne
  | cons l L2 => simp

theorem splitLines_flat_lines (L : List (List Char)) (hne : L ≠ [])
    (h : ∀ l ∈ L, '\n' ∉ l) :
    splitLines ((L.flatMap (fun l => l ++ ['\n'])).dropLast) = L := by
  induction L with
  | nil => exact absurd rfl hne
  | cons l L2 ih =>
    cases L2 with
    | nil =>
      simp only [List.flatMap_cons, List.flatMap_nil, List.append_nil]
      rw [List.dropLast_concat]
      exact splitLines_eq_single l (h l (List.mem_cons_self l []))
    | cons m M =>
      have hrest : (m :: M).flatMap (fun l => l ++ ['\n']) ≠ [] :=
        flatMap_newline_ne_nil (m :: M) (by simp)
      rw [List.flatMap_cons, List.dropLast_append_of_ne_nil _ hrest]
      have hl : '\n' ∉ l := h l (List.mem_cons_self l (m :: M))
      rw [List.append_assoc, List.singleton_append,
        splitLines_append_newline l _ hl]
      congr 1
      exact ih (by simp) (fun x hx => h x (List.mem_cons_of_mem l hx))

/-! ### Helper lemmas: the professor section -/

theorem sortedProfs_perm (results : List DetailRow) :
    (sortedProfs results).Perm (profsOf results).dedup :=
  List.perm_insertionSort OptLe (profsOf results).dedup

theorem mem_sortedProfs (results : List DetailRow) (p : Option (List Char)) :
    p ∈ sortedProfs results ↔ p ∈ profsOf results := by
  rw [(sortedProfs_perm results).mem_iff, List.mem_dedup]

theorem sortedProfs_nodup (results : List DetailRow) :
    (sortedProfs results).Nodup :=
  (sortedProfs_perm results).symm.nodup (List.nodup_dedup (profsOf results))

theorem sortedProfs_sorted (results : List DetailRow) :
    List.Sorted OptLe (sortedProfs results) :=
  List.sorted_insertionSort OptLe (profsOf results).dedup

theorem sortedProfs_ne_nil (r : DetailRow) (rs : List DetailRow) :
    sortedProfs (r :: rs) ≠ [] := by
  intro h
  have hperm := sortedProfs_perm (r :: rs)
  rw [h] at hperm
  have hd : (profsOf (r :: rs)).dedup = [] := hperm.symm.eq_nil
  exact absurd hd (by simp [profsOf, List.dedup_eq_nil])

theorem dedup_of_all_eq (l : List (Option (List Char))) (v : Option (List Char))
    (hne : l ≠ []) (h : ∀ x ∈ l, x = v) : l.dedup = [v] := by
  induction l with
  | nil => exact absurd rfl hne
  | cons x l2 ih =>
    have hx : x = v := h x (List.mem_cons_self x l2)
    subst hx
    cases l2 with
    | nil => rfl
    | cons y m =>
      have hy : y = x := h y (by simp)
      have hmem : x ∈ y :: m := by rw [hy]; exact List.mem_cons_self x m
      rw [List.dedup_cons_of_mem hmem]
      exact ih (by simp) (fun z hz => h z (List.mem_cons_of_mem x hz))

/-! ### Claim theorem: the professor section of the detail report -/

/-- C8: the detail report consists of the non-professor sections followed by
the professor section; when no professor link exists the professor section
is empty (zero `Professor:` lines), and when every row carries a professor
name the section is exactly one `Professor:` line per entry of the sorted,
deduplicated professor list — whose entries are precisely the professor
values of the rows, without duplicates, in ascending order. -/
theorem c8_professor_lines (r : DetailRow) (rs : List DetailRow)
    (hnl : ∀ q ∈ r :: rs, ∀ nm, q.profname = Option.some nm → '\n' ∉ nm) :
    detailLines (r :: rs) = detailPre (r :: rs) ++ profSection (r :: rs)
  ∧ ((∀ q ∈ r :: rs, q.profname = Option.none) → profSection (r :: rs) = [])
  ∧ ((∀ q ∈ r :: rs, q.profname ≠ Option.none) →
      profSection (r :: rs) =
        (sortedProfs (r :: rs)).map (fun p => ("Professor: ").data ++ optRepr p)
      ∧ (sortedProfs (r :: rs)).Nodup
      ∧ List.Sorted OptLe (sortedProfs (r :: rs))
      ∧ (∀ p, p ∈ sortedProfs (r :: rs) ↔ p ∈ (r :: rs).map (fun q => q.profname))) := by
  refine ⟨?_, ?_, ?_⟩
  · simp [detailLines, display_details, detailPre, profSection]
  · intro hall
    have hd : (profsOf (r :: rs)).dedup = [Option.none] := by
      apply dedup_of_all_eq _ Option.none (by simp [profsOf])
      intro x hx
      simp only [profsOf, List.mem_map] at hx
      rcases hx with ⟨q, hq, hqx⟩
      rw [← hqx]
      exact hall q hq
    have hs : sortedProfs (r :: rs) = [Option.none] := by
      unfold sortedProfs
      rw [hd]
      rfl
    simp [profSection, profPayload, hs]
  · intro hall
    obtain ⟨p0, Q, hshape⟩ : ∃ p0 Q, sortedProfs (r :: rs) = p0 :: Q := by
      cases hsp : sortedProfs (r :: rs) with
      | nil => exact absurd hsp (sortedProfs_ne_nil r rs)
      | cons p0 Q => exact ⟨p0, Q, rfl⟩
    have hp0 : p0 ≠ Option.none := by
      have hp0mem : p0 ∈ profsOf (r :: rs) :=
        (mem_sortedProfs (r :: rs) p0).mp (by rw [hshape]; exact List.mem_cons_self p0 Q)
      simp only [profsOf, List.mem_map] at hp0mem
      rcases hp0mem with ⟨q, hq, hqx⟩
      rw [← hqx]
      exact hall q hq
    obtain ⟨nm0, hnm0⟩ : ∃ nm0, p0 = Option.some nm0 := by
      cases p0 with
      | none => exact absurd rfl hp0
      | some z => exact ⟨z, rfl⟩
    have hpayload : profPayload (r :: rs) = [profStr (r :: rs)] := by
      unfold profPayload
      rw [hshape, hnm0]
    refine ⟨?_, sortedProfs_nodup _, sortedProfs_sorted _, fun p => mem_sortedProfs _ p⟩
    have hstep1 : profSection (r :: rs) = splitLines (profStr (r :: rs)) := by
      simp [profSection, hpayload]
    rw [hstep1]
    have hflat : profStr (r :: rs) =
        (((sortedProfs (r :: rs)).map
            (fun p => ("Professor: ").data ++ optRepr p)).flatMap
          (fun l => l ++ ['\n'])).dropLast := by
      unfold profStr
      rw [List.flatMap_map]
    rw [hflat]
    apply splitLines_flat_lines
    · simp [hshape]
    · intro l hl
      simp only [List.mem_map] at hl
      rcases hl with ⟨p, hpmem, hpl⟩
      have hpsome : ∃ nm, p = Option.some nm ∧ '\n' ∉ nm := by
        have : p ∈ profsOf (r :: rs) := (mem_sortedProfs (r :: rs) p).mp hpmem
        simp only [profsOf, List.mem_map] at this
        rcases this with ⟨q, hq, hqx⟩
        cases hpv : q.profname with
        | none => exact absurd hpv (hall q hq)
        | some nm => exact ⟨nm, by rw [← hqx, hpv], hnl q hq nm hpv⟩
      rcases hpsome with ⟨nm, hpnm, hnmnl⟩
      rw [← hpl, hpnm]
      intro hmem
      rcases List.mem_append.mp hmem with h | h
      · revert h
        decide
      · exact hnmnl (by simpa [optRepr] using h)

/-- First row of the C8 witness input: professor Robert Sedgewick. -/
def c8RowA : DetailRow :=
  DetailRow.mk ("3454").data ("TTh").data ("11:00 AM").data ("12:20 PM").data
    ("CS").data ("104").data ("COS").data ("226").data ("QR").data
    ("Algorithms and Data Structures").data ("Algorithms.").data []
    (Option.some ("Robert Sedgewick").data)

/-- Second row of the C8 witness input: professor Kevin Wayne. -/
def c8RowB : DetailRow :=
  DetailRow.mk ("3454").data ("TTh").data ("11:00 AM").data ("12:20 PM").data
    ("CS").data ("104").data ("COS").data ("226").data ("QR").data
    ("Algorithms and Data Structures").data ("Algorithms.").data []
    (Option.some ("Kevin Wayne").data)

/-- Witness for C8 at a class with two professors. -/
theorem c8_witness :
    (∀ q ∈ c8RowA :: [c8RowB], ∀ nm, q.profname = Option.some nm → '\n' ∉ nm)
  ∧ (detailLines (c8RowA :: [c8RowB]) =
      detailPre (c8RowA :: [c8RowB]) ++ profSection (c8RowA :: [c8RowB])
  ∧ ((∀ q ∈ c8RowA :: [c8RowB], q.profname = Option.none) →
      profSection (c8RowA :: [c8RowB]) = [])
  ∧ ((∀ q ∈ c8RowA :: [c8RowB], q.profname ≠ Option.none) →
      profSection (c8RowA :: [c8RowB]) =
        (sortedProfs (c8RowA :: [c8RowB])).map
          (fun p => ("Professor: ").data ++ optRepr p)
      ∧ (sortedProfs (c8RowA :: [c8RowB])).Nodup
      ∧ List.Sorted OptLe (sortedProfs (c8RowA :: [c8RowB]))
      ∧ (∀ p, p ∈ sortedProfs (c8RowA :: [c8RowB]) ↔
          p ∈ (c8RowA :: [c8RowB]).map (fun q => q.profname)))) := by
  have h : ∀ q ∈ c8RowA :: [c8RowB], ∀ nm, q.profname = Option.some nm → '\n' ∉ nm := by
    intro q hq nm hnm
    rcases List.mem_cons.mp hq with h1 | h1
    · subst h1
      have h3 : nm = ("Robert Sedgewick").data := by
        simpa [c8RowA] using hnm.symm
      subst h3
      decide
    · have h2 : q = c8RowB := by simpa using h1
      subst h2
      have h3 : nm = ("Kevin Wayne").data := by
        simpa [c8RowB] using hnm.symm
      subst h3
      decide
  exact ⟨h, c8_professor_lines c8RowA [c8RowB] h⟩

/-! ### Helper lemmas: chunk arithmetic for the wrapper -/

theorem sumLen_cons (c : List Char) (l : List (List Char)) :
    sumLen (c :: l) = c.length + sumLen l := by
  simp [sumLen]

theorem sumLen_append (a b : List (List Char)) :
    sumLen (a ++ b) = sumLen a + sumLen b := by
  simp [sumLen]

theorem flatten_length_sumLen (l : List (List Char)) :
    l.flatten.length = sumLen l := by
  simp [sumLen, List.length_flatten]

theorem wsMeasure_cons (c : List Char) (l : List (List Char)) :
    wsMeasure (c :: l) = c.length + 1 + wsMeasure l := by
  simp [wsMeasure]

theorem wsMeasure_append (a b : List (List Char)) :
    wsMeasure (a ++ b) = wsMeasure a + wsMeasure b := by
  simp [wsMeasure]

theorem wsMeasure_eq_zero (l : List (List Char)) (h : wsMeasure l = 0) : l = [] := by
  cases l with
  | nil => rfl
  | cons c cs => rw [wsMeasure_cons] at h; omega

theorem takeFit_append (w : Nat) (n : Nat) (l : List (List Char)) :
    (takeFit w n l).1 ++ (takeFit w n l).2 = l := by
  induction l generalizing n with
  | nil => rfl
  | cons c cs ih =>
    by_cases h : n + c.length ≤ w
    · simp [takeFit, h, ih]
    · simp [takeFit, h]

theorem takeFit_sumLen (w : Nat) (n : Nat) (l : List (List Char)) :
    (takeFit w n l).1 = [] ∨ n + sumLen (takeFit w n l).1 ≤ w := by
  induction l generalizing n with
  | nil => exact Or.inl rfl
  | cons c cs ih =>
    by_cases h : n + c.length ≤ w
    · right
      rcases ih (n + c.length) with h2 | h2
      · simp [takeFit, h, h2, sumLen_cons, sumLen]
      · simp only [takeFit, if_pos h]
        rw [sumLen_cons]
        omega
    · left
      simp [takeFit, h]

theorem takeFit_none (w : Nat) (n : Nat) (c : List Char) (cs : List (List Char))
    (h : (takeFit w n (c :: cs)).1 = []) :
    (takeFit w n (c :: cs)).2 = c :: cs ∧ w < n + c.length := by
  by_cases hf : n + c.length ≤ w
  · simp [takeFit, hf] at h
  · exact ⟨by simp [takeFit, hf], by omega⟩

theorem dropTrailWs_eq (cur : List (List Char)) :
    dropTrailWs cur = cur ∨
      ∃ x, cur = dropTrailWs cur ++ [x] ∧ isWsChunk x = true := by
  unfold dropTrailWs
  cases hg : cur.getLast? with
  | none => exact Or.inl rfl
  | some c =>
    have hne : cur ≠ [] := by
      intro hnil
      rw [hnil] at hg
      simp at hg
    by_cases hws : isWsChunk c
    · right
      refine ⟨c, ?_, hws⟩
      simp only [hws, if_pos]
      have hlast : cur.getLast hne = c := by
        have := List.getLast?_eq_getLast cur hne
        rw [hg] at this
        exact (Option.some.injEq _ _ ▸ this.symm :)
      rw [← hlast]
      exact (List.dropLast_append_getLast hne).symm
    · left
      simp [hws]

theorem dropTrailWs_sumLen_le (cur : List (List Char)) :
    sumLen (dropTrailWs cur) ≤ sumLen cur := by
  rcases dropTrailWs_eq cur with h | ⟨x, hx, _⟩
  · rw [h]
  · conv_rhs => rw [hx]
    rw [sumLen_append]
    omega

theorem dropTrailWs_filter (cur : List (List Char)) :
    (dropTrailWs cur).filter (fun c => !(isWsChunk c)) =
      cur.filter (fun c => !(isWsChunk c)) := by
  rcases dropTrailWs_eq cur with h | ⟨x, hx, hws⟩
  · rw [h]
  · conv_rhs => rw [hx]
    rw [List.filter_append]
    simp [hws]

theorem dropTrailWs_isPrefix (cur : List (List Char)) :
    dropTrailWs cur <+: cur := by
  rcases dropTrailWs_eq cur with h | ⟨x, hx, _⟩
  · rw [h]
  · exact ⟨[x], hx.symm⟩

/-! ### Helper lemmas: chunk structure invariants -/

theorem isWsChunk_cons (c : Char) (l : List Char) :
    isWsChunk (c :: l) = (c.isWhitespace && isWsChunk l) := by
  simp [isWsChunk]

theorem isWsChunk_of_uniform (c : List Char) (b : Bool) (hne : c ≠ [])
    (h : ∀ a ∈ c, a.isWhitespace = b) : isWsChunk c = b := by
  cases c with
  | nil => exact absurd rfl hne
  | cons x xs =>
    cases b with
    | false =>
      have hx : x.isWhitespace = false := h x (List.mem_cons_self x xs)
      simp [isWsChunk_cons, hx]
    | true =>
      simp only [isWsChunk, List.all_eq_true]
      intro a ha
      simp [h a ha]

/-- The invariant of a textwrap chunk list: every chunk is non-empty and
uniformly whitespace or non-whitespace, and adjacent chunks alternate. -/
def ChunksInv (chunks : List (List Char)) : Prop :=
  (∀ c ∈ chunks, c ≠ []) ∧ (∀ c ∈ chunks, ∃ b, ∀ a ∈ c, a.isWhitespace = b) ∧
    List.Chain' (fun a b => isWsChunk a ≠ isWsChunk b) chunks

theorem chunksOf_cons_shape (c : Char) (cs : List Char) :
    ∃ u rs, chunksOf (c :: cs) = (c :: u) :: rs := by
  cases hcs : chunksOf cs with
  | nil => exact ⟨[], [], by simp [chunksOf, hcs]⟩
  | cons h t =>
    cases h with
    | nil => exact ⟨[], t, by simp [chunksOf, hcs]⟩
    | cons d r =>
      by_cases hws : c.isWhitespace = d.isWhitespace
      · exact ⟨d :: r, t, by simp [chunksOf, hcs, hws]⟩
      · exact ⟨[], (d :: r) :: t, by simp [chunksOf, hcs, hws]⟩

theorem chunksOf_inv (s : List Char) : ChunksInv (chunksOf s) := by
  induction s with
  | nil =>
    refine ⟨?_, ?_, ?_⟩ <;> simp [chunksOf]
  | cons c cs ih =>
    obtain ⟨hne, huni, hchain⟩ := ih
    cases hcs : chunksOf cs with
    | nil =>
      have hc : chunksOf (c :: cs) = [[c]] := by simp [chunksOf, hcs]
      rw [hc]
      refine ⟨by simp, ?_, List.chain'_singleton _⟩
      intro k hk
      simp only [List.mem_singleton] at hk
      exact ⟨c.isWhitespace, by simp [hk]⟩
    | cons h t =>
      have hh : h ≠ [] := hne h (by rw [hcs]; exact List.mem_cons_self h t)
      cases h with
      | nil => exact absurd rfl hh
      | cons d r =>
        obtain ⟨b, hb⟩ := huni (d :: r) (by rw [hcs]; exact List.mem_cons_self _ t)
        have hdb : d.isWhitespace = b := hb d (List.mem_cons_self d r)
        by_cases hws : c.isWhitespace = d.isWhitespace
        · have hc : chunksOf (c :: cs) = (c :: d :: r) :: t := by
            simp [chunksOf, hcs, hws]
          rw [hc]
          rw [hcs] at hne huni hchain
          have hsame : isWsChunk (c :: d :: r) = isWsChunk (d :: r) := by
            rw [isWsChunk_cons, isWsChunk_cons, hws]
            cases hdw : d.isWhitespace <;> simp [hdw]
          refine ⟨?_, ?_, ?_⟩
          · intro k hk
            rcases List.mem_cons.mp hk with hk | hk
            · simp [hk]
            · exact hne k (List.mem_cons_of_mem _ hk)
          · intro k hk
            rcases List.mem_cons.mp hk with hk | hk
            · refine ⟨b, ?_⟩
              intro a ha
              rcases List.mem_cons.mp (hk ▸ ha) with ha2 | ha2
              · rw [ha2, hws, hdb]
              · exact hb a ha2
            · exact huni k (List.mem_cons_of_mem _ hk)
          · rw [List.chain'_cons'] at hchain ⊢
            refine ⟨?_, hchain.2⟩
            intro y hy
            rw [hsame]
            exact hchain.1 y hy
        · have hc : chunksOf (c :: cs) = [c] :: (d :: r) :: t := by
            simp [chunksOf, hcs, hws]
          rw [hc]
          rw [hcs] at hne huni hchain
          refine ⟨?_, ?_, ?_⟩
          · intro k hk
            rcases List.mem_cons.mp hk with hk | hk
            · simp [hk]
            · exact hne k hk
          · intro k hk
            rcases List.mem_cons.mp hk with hk | hk
            · exact ⟨c.isWhitespace, by simp [hk]⟩
            · exact huni k hk
          · rw [List.chain'_cons]
            refine ⟨?_, hchain⟩
            have h1 : isWsChunk [c] = c.isWhitespace := by
              simp [isWsChunk]
            have h2 : isWsChunk (d :: r) = b :=
              isWsChunk_of_uniform (d :: r) b (by simp) hb
            rw [h1, h2, ← hdb]
            exact fun hcc => hws hcc

theorem ChunksInv_append (a b : List (List Char)) (h : ChunksInv (a ++ b)) :
    ChunksInv a ∧ ChunksInv b := by
  obtain ⟨h1, h2, h3⟩ := h
  rw [List.chain'_append] at h3
  exact ⟨⟨fun c hc => h1 c (List.mem_append_left b hc),
          fun c hc => h2 c (List.mem_append_left b hc), h3.1⟩,
         ⟨fun c hc => h1 c (List.mem_append_right a hc),
          fun c hc => h2 c (List.mem_append_right a hc), h3.2.1⟩⟩

theorem ChunksInv_of_isPrefix (a b : List (List Char)) (hp : a <+: b)
    (h : ChunksInv b) : ChunksInv a := by
  obtain ⟨t, rfl⟩ := hp
  exact (ChunksInv_append a t h).1

theorem chunksOf_cons (c : Char) (cs : List Char) :
    chunksOf (c :: cs) =
      match chunksOf cs with
      | [] => [[c]]
      | [] :: rs => [c] :: rs
      | (d :: r) :: rs =>
        if c.isWhitespace = d.isWhitespace then (c :: d :: r) :: rs
        else [c] :: (d :: r) :: rs := by
  rfl

theorem chunksOf_chunk_prepend (k : List Char) (b : Bool) (hk : k ≠ [])
    (hall : ∀ a ∈ k, a.isWhitespace = b) (s : List Char)
    (hs : s = [] ∨ ∃ d ds, s = d :: ds ∧ d.isWhitespace ≠ b) :
    chunksOf (k ++ s) = k :: chunksOf s := by
  induction k with
  | nil => exact absurd rfl hk
  | cons x xs ih =>
    have hx : x.isWhitespace = b := hall x (List.mem_cons_self x xs)
    cases xs with
    | nil =>
      rcases hs with hs | ⟨d, ds, hsd, hdb⟩
      · subst hs
        simp [chunksOf]
      · subst hsd
        obtain ⟨u, rs, hshape⟩ := chunksOf_cons_shape d ds
        have hne2 : ¬ (x.isWhitespace = d.isWhitespace) := by
          rw [hx]
          exact fun hc => hdb hc.symm
        rw [List.singleton_append, chunksOf_cons x (d :: ds), hshape]
        simp [hne2, hshape]
    | cons y ys =>
      have hih : chunksOf (y :: (ys ++ s)) = (y :: ys) :: chunksOf s := by
        rw [← List.cons_append]
        exact ih (by simp) (fun a ha => hall a (List.mem_cons_of_mem x ha))
      have hy : y.isWhitespace = b := hall y (by simp)
      have hxy : x.isWhitespace = y.isWhitespace := by rw [hx, hy]
      have hstep : (x :: y :: ys) ++ s = x :: (y :: (ys ++ s)) := by simp
      rw [hstep, chunksOf_cons x (y :: (ys ++ s)), hih]
      simp [hxy]

theorem chunksOf_flatten (chunks : List (List Char)) (hinv : ChunksInv chunks) :
    chunksOf chunks.flatten = chunks := by
  induction chunks with
  | nil => rfl
  | cons k ks ih =>
    obtain ⟨hne, huni, hchain⟩ := hinv
    obtain ⟨b, hb⟩ := huni k (List.mem_cons_self k ks)
    have hkne : k ≠ [] := hne k (List.mem_cons_self k ks)
    rw [List.flatten_cons]
    rw [chunksOf_chunk_prepend k b hkne hb ks.flatten ?side]
    case side =>
      cases ks with
      | nil => exact Or.inl rfl
      | cons k2 ks2 =>
        right
        have hk2ne : k2 ≠ [] := hne k2 (by simp)
        obtain ⟨b2, hb2⟩ := huni k2 (by simp)
        have hrel : isWsChunk k ≠ isWsChunk k2 := (List.chain'_cons.mp hchain).1
        rw [isWsChunk_of_uniform k b hkne hb,
          isWsChunk_of_uniform k2 b2 hk2ne hb2] at hrel
        cases k2 with
        | nil => exact absurd rfl hk2ne
        | cons d r =>
          refine ⟨d, r ++ ks2.flatten, by simp, ?_⟩
          rw [hb2 d (List.mem_cons_self d r)]
          exact fun hc => hrel hc.symm
    congr 1
    apply ih
    refine ⟨fun c hc => hne c (List.mem_cons_of_mem k hc),
      fun c hc => huni c (List.mem_cons_of_mem k hc), hchain.tail⟩

theorem nonWsRuns_ws_prepend (w s : List Char)
    (h : ∀ a ∈ w, a.isWhitespace = true) :
    nonWsRuns (w ++ s) = nonWsRuns s := by
  induction w with
  | nil => simp
  | cons c w2 ih =>
    have hc : c.isWhitespace = true := h c (List.mem_cons_self c w2)
    have hrest : ∀ a ∈ w2, a.isWhitespace = true :=
      fun a ha => h a (List.mem_cons_of_mem c ha)
    rw [List.cons_append, ← ih hrest]
    cases hsh : chunksOf (w2 ++ s) with
    | nil =>
      have hcc : chunksOf (c :: (w2 ++ s)) = [[c]] := by simp [chunksOf, hsh]
      simp [nonWsRuns, hcc, hsh, List.filter_cons, isWsChunk, hc]
    | cons hd t =>
      have hhd : hd ≠ [] := (chunksOf_inv (w2 ++ s)).1 hd (by rw [hsh]; simp)
      cases hd with
      | nil => exact absurd rfl hhd
      | cons d r =>
        by_cases hws : c.isWhitespace = d.isWhitespace
        · have hcc : chunksOf (c :: (w2 ++ s)) = (c :: d :: r) :: t := by
            simp [chunksOf, hsh, hws]
          obtain ⟨b, hb⟩ := (chunksOf_inv (w2 ++ s)).2.1 (d :: r) (by rw [hsh]; simp)
          have hbt : b = true := by
            rw [← hb d (List.mem_cons_self d r), ← hws, hc]
          have hdr : isWsChunk (d :: r) = true := by
            rw [isWsChunk_of_uniform (d :: r) b (by simp) hb, hbt]
          have hcdr : isWsChunk (c :: d :: r) = true := by
            rw [isWsChunk_cons, hc, hdr]
            rfl
          rw [nonWsRuns, nonWsRuns, hcc, hsh, List.filter_cons, List.filter_cons,
            hcdr, hdr]
          simp
        · have hcc : chunksOf (c :: (w2 ++ s)) = [c] :: (d :: r) :: t := by
            simp [chunksOf, hsh, hws]
          rw [nonWsRuns, nonWsRuns, hcc, hsh, List.filter_cons]
          have hwc : isWsChunk [c] = true := by simp [isWsChunk, hc]
          simp [hwc]

/-! ### Helper lemmas: one step of the wrapper (without long-word breaking) -/

theorem wrapStep_false_spec (w : Nat) (chunks : List (List Char))
    (h : chunks ≠ []) :
    ∃ used rest, chunks = used ++ rest ∧ used ≠ [] ∧
      (wrapStep w false chunks).2 = rest ∧
      (wrapStep w false chunks).1 =
        (if (dropTrailWs used).isEmpty then Option.none
         else Option.some (dropTrailWs used).flatten) ∧
      (sumLen used ≤ w ∨ ∃ c, used = [c] ∧ w < c.length) := by
  have happ := takeFit_append w 0 chunks
  have hsum := takeFit_sumLen w 0 chunks
  cases ht : takeFit w 0 chunks with
  | mk cur rest0 =>
    rw [ht] at happ hsum
    simp only at happ hsum
    cases rest0 with
    | nil =>
      have hcur : cur = chunks := by rw [← happ, List.append_nil]
      refine ⟨cur, [], by rw [← happ], by rw [hcur]; exact h, ?_, ?_, ?_⟩
      · simp [wrapStep, ht]
      · simp [wrapStep, ht]
      · left
        rcases hsum with hq | hq
        · exact absurd (hq ▸ hcur.symm ▸ hcur ▸ rfl : cur = []) (hcur ▸ h)
        · omega
    | cons c cs =>
      by_cases hlong : w < c.length
      · by_cases hcur : cur.isEmpty
        · have hcnil : cur = [] := by
            cases cur with
            | nil => rfl
            | cons a b => simp at hcur
          have hchunks : chunks = c :: cs := by
            rw [← happ, hcnil, List.nil_append]
          refine ⟨[c], cs, by rw [hchunks]; rfl, by simp, ?_, ?_, ?_⟩
          · simp [wrapStep, ht, hlong, hcnil]
          · simp [wrapStep, ht, hlong, hcnil]
          · exact Or.inr ⟨c, rfl, hlong⟩
        · have hcne : cur ≠ [] := by
            cases cur with
            | nil => simp at hcur
            | cons a b => simp
          refine ⟨cur, c :: cs, happ.symm, hcne, ?_, ?_, ?_⟩
          · simp [wrapStep, ht, hlong, hcur]
          · simp [wrapStep, ht, hlong, hcur]
          · left
            rcases hsum with hq | hq
            · exact absurd hq hcne
            · omega
      · have hcne : cur ≠ [] := by
          intro hcnil
          have hchunks : chunks = c :: cs := by
            rw [← happ, hcnil, List.nil_append]
          have hrest := takeFit_none w 0 c cs (by rw [← hchunks, ht]; exact hcnil)
          omega
        refine ⟨cur, c :: cs, happ.symm, hcne, ?_, ?_, ?_⟩
        · simp [wrapStep, ht, hlong]
        · simp [wrapStep, ht, hlong]
        · left
          rcases hsum with hq | hq
          · exact absurd hq hcne
          · omega

theorem wsMeasure_pos (l : List (List Char)) (h : l ≠ []) : 0 < wsMeasure l := by
  cases l with
  | nil => exact absurd rfl h
  | cons c cs => rw [wsMeasure_cons]; omega

theorem wrapLoopF_succ_cons_false (width : Nat) (sub : List Char) (blw : Bool)
    (fuel : Nat) (c0 : List Char) (cs0 : List (List Char)) :
    wrapLoopF width sub blw (fuel + 1) (c0 :: cs0) false =
      if isWsChunk c0 then wrapLoopF width sub blw fuel cs0 false
      else
        (match (wrapStep (width - sub.length) blw (c0 :: cs0)).1 with
         | Option.some l =>
             (sub ++ l) ::
               wrapLoopF width sub blw fuel
                 (wrapStep (width - sub.length) blw (c0 :: cs0)).2 false
         | Option.none =>
             wrapLoopF width sub blw fuel
               (wrapStep (width - sub.length) blw (c0 :: cs0)).2 false) := by
  rfl

theorem wrapLoopF_succ_cons_true (width : Nat) (sub : List Char) (blw : Bool)
    (fuel : Nat) (c0 : List Char) (cs0 : List (List Char)) :
    wrapLoopF width sub blw (fuel + 1) (c0 :: cs0) true =
      (match (wrapStep width blw (c0 :: cs0)).1 with
       | Option.some l =>
           l :: wrapLoopF width sub blw fuel (wrapStep width blw (c0 :: cs0)).2 false
       | Option.none =>
           wrapLoopF width sub blw fuel (wrapStep width blw (c0 :: cs0)).2 true) := by
  rfl

theorem wrapLoopF_continuation_prefix (width : Nat) (sub : List Char) (blw : Bool) :
    ∀ fuel chunks, ∀ l ∈ wrapLoopF width sub blw fuel chunks false, sub <+: l := by
  intro fuel
  induction fuel with
  | zero =>
    intro chunks l hl
    cases chunks <;> simp [wrapLoopF] at hl
  | succ fuel ih =>
    intro chunks l hl
    cases chunks with
    | nil => simp [wrapLoopF] at hl
    | cons c0 cs0 =>
      rw [wrapLoopF_succ_cons_false] at hl
      by_cases hdrop : isWsChunk c0
      · rw [if_pos hdrop] at hl
        exact ih cs0 l hl
      · rw [if_neg hdrop] at hl
        cases hs1 : (wrapStep (width - sub.length) blw (c0 :: cs0)).1 with
        | none =>
          simp only [hs1] at hl
          exact ih _ l hl
        | some l2 =>
          simp only [hs1] at hl
          rcases List.mem_cons.mp hl with hl | hl
          · exact hl ▸ ⟨l2, rfl⟩
          · exact ih _ l hl

theorem wrapLoopF_first_tail_prefix (width : Nat) (sub : List Char) (blw : Bool) :
    ∀ fuel chunks, ∀ l ∈ (wrapLoopF width sub blw fuel chunks true).tail,
      sub <+: l := by
  intro fuel
  induction fuel with
  | zero =>
    intro chunks l hl
    cases chunks <;> simp [wrapLoopF] at hl
  | succ fuel ih =>
    intro chunks l hl
    cases chunks with
    | nil => simp [wrapLoopF] at hl
    | cons c0 cs0 =>
      rw [wrapLoopF_succ_cons_true] at hl
      cases hs1 : (wrapStep width blw (c0 :: cs0)).1 with
      | none =>
        simp only [hs1] at hl
        exact ih _ l hl
      | some l2 =>
        simp only [hs1, List.tail_cons] at hl
        exact wrapLoopF_continuation_prefix width sub blw fuel _ l hl

theorem wrapLoopF_width_bound (width : Nat) (sub : List Char) :
    ∀ fuel chunks first, (∀ c ∈ chunks, c ≠ []) →
      ∀ l ∈ wrapLoopF width sub false fuel chunks first,
        l.length ≤ width ∨ ∃ c ∈ chunks, width - sub.length < c.length := by
  intro fuel
  induction fuel with
  | zero =>
    intro chunks first hne l hl
    cases chunks <;> simp [wrapLoopF] at hl
  | succ fuel ih =>
    intro chunks first hne l hl
    cases chunks with
    | nil => simp [wrapLoopF] at hl
    | cons c0 cs0 =>
      cases first with
      | true =>
        rw [wrapLoopF_succ_cons_true] at hl
        obtain ⟨used, rest, happ, husedne, hrest, hout, hbound⟩ :=
          wrapStep_false_spec width (c0 :: cs0) (by simp)
        have hrsub : ∀ c ∈ rest, c ≠ [] := fun c hc =>
          hne c (happ ▸ List.mem_append_right used hc)
        by_cases hfin : (dropTrailWs used).isEmpty
        · rw [hout, if_pos hfin] at hl
          simp only [hrest] at hl
          rcases ih rest true hrsub l hl with hb | ⟨c, hc, hlen⟩
          · exact Or.inl hb
          · exact Or.inr ⟨c, happ ▸ List.mem_append_right used hc, hlen⟩
        · rw [hout, if_neg hfin] at hl
          simp only [hrest] at hl
          rcases List.mem_cons.mp hl with hl | hl
          · subst hl
            rw [flatten_length_sumLen]
            rcases hbound with hb | ⟨c, hused, hlong⟩
            · have hd := dropTrailWs_sumLen_le used
              exact Or.inl (by omega)
            · right
              refine ⟨c, happ ▸ List.mem_append_left rest (hused ▸ List.mem_cons_self c []), ?_⟩
              omega
          · rcases ih rest false hrsub l hl with hb | ⟨c, hc, hlen⟩
            · exact Or.inl hb
            · exact Or.inr ⟨c, happ ▸ List.mem_append_right used hc, hlen⟩
      | false =>
        rw [wrapLoopF_succ_cons_false] at hl
        by_cases hdrop : isWsChunk c0
        · rw [if_pos hdrop] at hl
          rcases ih cs0 false (fun c hc => hne c (List.mem_cons_of_mem c0 hc)) l hl with
            hb | ⟨c, hc, hlen⟩
          · exact Or.inl hb
          · exact Or.inr ⟨c, List.mem_cons_of_mem c0 hc, hlen⟩
        · rw [if_neg hdrop] at hl
          obtain ⟨used, rest, happ, husedne, hrest, hout, hbound⟩ :=
            wrapStep_false_spec (width - sub.length) (c0 :: cs0) (by simp)
          have hrsub : ∀ c ∈ rest, c ≠ [] := fun c hc =>
            hne c (happ ▸ List.mem_append_right used hc)
          by_cases hfin : (dropTrailWs used).isEmpty
          · rw [hout, if_pos hfin] at hl
            simp only [hrest] at hl
            rcases ih rest false hrsub l hl with hb | ⟨c, hc, hlen⟩
            · exact Or.inl hb
            · exact Or.inr ⟨c, happ ▸ List.mem_append_right used hc, hlen⟩
          · rw [hout, if_neg hfin] at hl
            simp only [hrest] at hl
            rcases List.mem_cons.mp hl with hl | hl
            · subst hl
              rw [List.length_append, flatten_length_sumLen]
              rcases hbound with hb | ⟨c, hused, hlong⟩
              · have hd := dropTrailWs_sumLen_le used
                by_cases hsw : sub.length ≤ width
                · exact Or.inl (by omega)
                · exfalso
                  have hw0 : width - sub.length = 0 := by omega
                  rw [hw0] at hb
                  cases used with
                  | nil => exact husedne rfl
                  | cons u us =>
                    have hu : u ≠ [] :=
                      hne u (happ ▸ List.mem_append_left rest (List.mem_cons_self u us))
                    have hupos : 0 < u.length := List.length_pos.mpr hu
                    rw [sumLen_cons] at hb
                    omega
              · right
                refine ⟨c, happ ▸ List.mem_append_left rest
                  (hused ▸ List.mem_cons_self c []), hlong⟩
            · rcases ih rest false hrsub l hl with hb | ⟨c, hc, hlen⟩
              · exact Or.inl hb
              · exact Or.inr ⟨c, happ ▸ List.mem_append_right used hc, hlen⟩

theorem nonWsRuns_line (ind : List Char) (hind : ∀ a ∈ ind, a.isWhitespace = true)
    (fin : List (List Char)) (hinv : ChunksInv fin) :
    nonWsRuns (ind ++ fin.flatten) = fin.filter (fun c => !(isWsChunk c)) := by
  rw [nonWsRuns_ws_prepend ind fin.flatten hind, nonWsRuns,
    chunksOf_flatten fin hinv]

theorem wrapLoopF_words (width : Nat) (sub : List Char)
    (hsub : ∀ a ∈ sub, a.isWhitespace = true) :
    ∀ fuel chunks first, wsMeasure chunks ≤ fuel → ChunksInv chunks →
      (wrapLoopF width sub false fuel chunks first).flatMap nonWsRuns =
        chunks.filter (fun c => !(isWsChunk c)) := by
  intro fuel
  induction fuel with
  | zero =>
    intro chunks first hm hinv
    have hnil : chunks = [] := wsMeasure_eq_zero chunks (Nat.le_zero.mp hm)
    subst hnil
    simp [wrapLoopF]
  | succ fuel ih =>
    intro chunks first hm hinv
    cases chunks with
    | nil => simp [wrapLoopF]
    | cons c0 cs0 =>
      have hstep : ∀ (ind : List Char), (∀ a ∈ ind, a.isWhitespace = true) →
          ∀ first2 : Bool,
          ((match (wrapStep (width - ind.length) false (c0 :: cs0)).1 with
            | Option.some l =>
                (ind ++ l) ::
                  wrapLoopF width sub false fuel
                    (wrapStep (width - ind.length) false (c0 :: cs0)).2 false
            | Option.none =>
                wrapLoopF width sub false fuel
                  (wrapStep (width - ind.length) false (c0 :: cs0)).2
                  first2) : List (List Char)).flatMap nonWsRuns =
            (c0 :: cs0).filter (fun c => !(isWsChunk c)) := by
        intro ind hind first2
        obtain ⟨used, rest, happ, husedne, hrest, hout, _⟩ :=
          wrapStep_false_spec (width - ind.length) (c0 :: cs0) (by simp)
        have husedpre : used <+: c0 :: cs0 := ⟨rest, happ.symm⟩
        have hinv_used : ChunksInv used := ChunksInv_of_isPrefix used _ husedpre hinv
        have hinv_rest : ChunksInv rest :=
          (ChunksInv_append used rest (happ ▸ hinv)).2
        have hm_rest : wsMeasure rest ≤ fuel := by
          have h1 : wsMeasure (c0 :: cs0) = wsMeasure used + wsMeasure rest := by
            rw [happ, wsMeasure_append]
          have h2 : 0 < wsMeasure used := wsMeasure_pos used husedne
          omega
        have hfilter : (c0 :: cs0).filter (fun c => !(isWsChunk c)) =
            used.filter (fun c => !(isWsChunk c)) ++
              rest.filter (fun c => !(isWsChunk c)) := by
          rw [happ, List.filter_append]
        by_cases hfin : (dropTrailWs used).isEmpty
        · rw [hout, if_pos hfin]
          simp only [hrest]
          rw [ih rest first2 hm_rest hinv_rest, hfilter]
          have hdnil : dropTrailWs used = [] := List.isEmpty_iff.mp hfin
          rw [← dropTrailWs_filter used, hdnil]
          rfl
        · rw [hout, if_neg hfin]
          simp only [hrest]
          rw [List.flatMap_cons, ih rest false hm_rest hinv_rest, hfilter]
          congr 1
          rw [nonWsRuns_line ind hind (dropTrailWs used)
            (ChunksInv_of_isPrefix _ used (dropTrailWs_isPrefix used) hinv_used)]
          exact dropTrailWs_filter used
      cases first with
      | true =>
        rw [wrapLoopF_succ_cons_true]
        have h0 : width - ([] : List Char).length = width := by simp
        have := hstep [] (by simp) true
        rw [h0] at this
        simpa using this
      | false =>
        rw [wrapLoopF_succ_cons_false]
        by_cases hdrop : isWsChunk c0
        · rw [if_pos hdrop]
          have hm2 : wsMeasure cs0 ≤ fuel := by
            rw [wsMeasure_cons] at hm
            omega
          have hinv2 : ChunksInv cs0 :=
            (ChunksInv_append [c0] cs0 hinv).2
          rw [ih cs0 false hm2 hinv2, List.filter_cons]
          simp [hdrop]
        · rw [if_neg hdrop]
          exact hstep sub hsub false

/-! ### Claim theorem: table rendering -/

/-- C9: each table row is rendered as the fixed-width right-aligned line
(class id 5, dept 4, course number 6, area 4, then the title) wrapped at
width 72 with continuation lines indented by `len(line) - len(title)`
spaces: the printed string is the wrapped lines joined by newlines, every
wrapped line fits in 72 columns unless a single chunk longer than the
available width was placed alone, every continuation line starts with the
indent, and the non-whitespace runs (words) of the wrapped lines are exactly
the words of the assembled line, in order — so no word is ever broken across
lines. -/
theorem c9_table_row_rendering (r : SearchRow) :
    displayTableLine r = List.intercalate ['\n'] (rowWrapped r)
  ∧ tableIndent r = (rowLine r).length - r.title.length
  ∧ (∀ l ∈ rowWrapped r,
      l.length ≤ 72 ∨
        ∃ c ∈ chunksOf (replaceWs (rowLine r)), 72 - tableIndent r < c.length)
  ∧ (∀ l ∈ (rowWrapped r).tail, List.replicate (tableIndent r) ' ' <+: l)
  ∧ (rowWrapped r).flatMap nonWsRuns = nonWsRuns (replaceWs (rowLine r)) := by
  refine ⟨rfl, rfl, ?_, ?_, ?_⟩
  · intro l hl
    have hne : ∀ c ∈ chunksOf (replaceWs (rowLine r)), c ≠ [] :=
      (chunksOf_inv (replaceWs (rowLine r))).1
    have hb := wrapLoopF_width_bound 72 (List.replicate (tableIndent r) ' ')
      (wsMeasure (chunksOf (replaceWs (rowLine r))))
      (chunksOf (replaceWs (rowLine r))) true hne l hl
    simpa [List.length_replicate] using hb
  · intro l hl
    exact wrapLoopF_first_tail_prefix 72 (List.replicate (tableIndent r) ' ') false
      (wsMeasure (chunksOf (replaceWs (rowLine r))))
      (chunksOf (replaceWs (rowLine r))) l hl
  · have hsubws : ∀ a ∈ List.replicate (tableIndent r) ' ', a.isWhitespace = true := by
      intro a ha
      rw [(List.mem_replicate.mp ha).2]
      decide
    exact wrapLoopF_words 72 (List.replicate (tableIndent r) ' ') hsubws
      (wsMeasure (chunksOf (replaceWs (rowLine r))))
      (chunksOf (replaceWs (rowLine r))) true le_rfl
      (chunksOf_inv (replaceWs (rowLine r)))
